import Mathlib

/-!
Verification of the tasks-api repository contract (src/server.js).

The repository exposes two interchangeable task repositories:
`InMemoryTaskRepository` and `PostgresTaskRepository`, both implementing
`list / getById / create / update / delete` over tasks `{id, title, done}`.
This file embeds both backends and proves/refutes the frozen claims about
them.  JS strings are modelled as lists of characters (`Str`); JS numbers
occurring here are non-negative integers and are modelled as `Nat`
(validation upstream guarantees `limit`, `offset`, `id` are non-negative
integers); `Array.prototype.sort`, which is stable with a user comparator,
is modelled as a stable insertion sort on the comparator-induced boolean
`le`; SQL `LIKE`/`ILIKE` pattern matching is modelled by an executable
matcher over character lists.
-/

namespace TasksApi

/-- A JS string, modelled as its sequence of characters. -/
abbrev Str := List Char

/-- `String.prototype.toLowerCase`, restricted to the basic-latin case
mapping (`Char.toLower`). -/
def lowerStr (s : Str) : Str := s.map Char.toLower

/-- `hay.includes(needle)`: substring containment on JS strings. -/
def includesSub (hay needle : Str) : Bool :=
  hay.tails.any (fun t => needle.isPrefixOf t)

/-- JS `<` on strings: lexicographic comparison of the character
sequences (for the basic-latin text handled here, code-unit order and
code-point order coincide). -/
def strLt : Str → Str → Bool
  | [], [] => false
  | [], _ :: _ => true
  | _ :: _, [] => false
  | a :: as, b :: bs => if a < b then true else if b < a then false else strLt as bs

/-- A task record `{id, title, done}`. -/
structure Task where
  id : Nat
  title : Str
  done : Bool
deriving DecidableEq, Repr

/-- The whitelisted sort fields of the query contract
(`query("sort").optional().isIn(["id", "title", "done"])`). -/
inductive SortField where
  | id
  | title
  | done
deriving DecidableEq, Repr

/-- The whitelisted sort orders (`isIn(["asc", "desc"])`). -/
inductive SortOrder where
  | asc
  | desc
deriving DecidableEq, Repr

/-- The normalized list query `{ limit, offset, done, search, sort, order }`
as validated by the route layer: `limit`/`offset` non-negative integers,
optional `done` boolean, optional `search` string, whitelisted `sort` and
`order`. -/
structure Query where
  limit : Nat
  offset : Nat
  done : Option Bool
  search : Option Str
  sort : SortField
  order : SortOrder
deriving DecidableEq, Repr

/-- The result shape of `list`: `{ items, total }`. -/
structure ListResult where
  items : List Task
  total : Nat
deriving DecidableEq, Repr

/-! ## Stable sort

`Array.prototype.sort(comparator)` is stable; it is modelled as the stable
insertion sort for the boolean relation `le a b := comparator(a,b) <= 0`. -/

/-- Insert `a` in front of the first element `b` with `le a b`. -/
def orderedInsert (le : Task → Task → Bool) (a : Task) : List Task → List Task
  | [] => [a]
  | b :: l => if le a b then a :: b :: l else b :: orderedInsert le a l

/-- Stable sort of a task list by a boolean `le` relation. -/
def sortBy (le : Task → Task → Bool) : List Task → List Task
  | [] => []
  | a :: l => orderedInsert le a (sortBy le l)

/-! ## In-memory repository (`InMemoryTaskRepository`) -/

/-- `compareValues(a, b)` from `InMemoryTaskRepository`, applied to the
field selected by `sort` (the JS code reads `a[sort]`):
`a === b ? 0 : a < b ? -1 : 1`.  For `done`, JS `<` coerces booleans to
numbers, hence the `Bool.toNat` comparison. -/
def compareValues (sort : SortField) (a b : Task) : Int :=
  match sort with
  | .id => if a.id = b.id then 0 else if a.id < b.id then -1 else 1
  | .title => if a.title = b.title then 0 else if strLt a.title b.title then -1 else 1
  | .done => if a.done = b.done then 0 else if a.done.toNat < b.done.toNat then -1 else 1

/-- `const direction = order === "asc" ? 1 : -1`. -/
def direction (order : SortOrder) : Int :=
  if order = .asc then 1 else -1

/-- The comparator passed to `sort()` in `InMemoryTaskRepository.list`:
primary comparison on the sort field times the direction, with the
deterministic tie-breaker `compareValues(a.id, b.id)`. -/
def memCmp (sort : SortField) (order : SortOrder) (a b : Task) : Int :=
  let primary := compareValues sort a b
  if primary ≠ 0 then primary * direction order
  else compareValues .id a b

/-- The boolean `le` induced by the in-memory comparator. -/
def memLe (sort : SortField) (order : SortOrder) (a b : Task) : Bool :=
  memCmp sort order a b ≤ 0

/-- The `done` filter: `if (done !== undefined) filtered.filter((t) => t.done === done)`
(identical filter condition in both backends: `done = $n` in SQL). -/
def doneMatches (done : Option Bool) (t : Task) : Bool :=
  match done with
  | none => true
  | some b => t.done == b

/-- The in-memory search filter:
`if (search) filtered.filter((t) => t.title.toLowerCase().includes(search.toLowerCase()))`.
JS truthiness means an empty search string applies no filter. -/
def searchMatchesMem (search : Option Str) (t : Task) : Bool :=
  match search with
  | none => true
  | some s => if s = [] then true else includesSub (lowerStr t.title) (lowerStr s)

/-- The filtering pipeline of `InMemoryTaskRepository.list`: the `done`
filter, then the `search` filter. -/
def memFiltered (tasks : List Task) (q : Query) : List Task :=
  (tasks.filter (doneMatches q.done)).filter (searchMatchesMem q.search)

/-- The sorted, filtered set built by `InMemoryTaskRepository.list`
(`filtered.slice().sort(...)`). -/
def memSorted (tasks : List Task) (q : Query) : List Task :=
  sortBy (memLe q.sort q.order) (memFiltered tasks q)

/-- `InMemoryTaskRepository.list`: filter, sort, then
`total = sorted.length` and `items = sorted.slice(offset, offset + limit)`. -/
def memList (tasks : List Task) (q : Query) : ListResult :=
  let sorted := memSorted tasks q
  { items := (sorted.drop q.offset).take q.limit, total := sorted.length }

/-- `InMemoryTaskRepository.getById`: `tasks.find((t) => t.id === id) || null`. -/
def memGetById (tasks : List Task) (id : Nat) : Option Task :=
  tasks.find? (fun t => t.id == id)

/-- The mutable state captured by an `InMemoryTaskRepository` closure:
the `tasks` array and the `nextId` counter. -/
structure MemState where
  tasks : List Task
  nextId : Nat
deriving DecidableEq, Repr

/-- `InMemoryTaskRepository(seedTasks)`: copies the seed and sets
`nextId = tasks.reduce((max, t) => Math.max(max, t.id), 0) + 1`. -/
def InMemoryTaskRepository (seedTasks : List Task) : MemState :=
  { tasks := seedTasks
    nextId := (seedTasks.foldl (fun m t => max m t.id) 0) + 1 }

/-- `InMemoryTaskRepository.create`: the new task gets `id = nextId++`
and is pushed at the end of the array. -/
def memCreate (s : MemState) (title : Str) (done : Bool) : Task × MemState :=
  let task : Task := { id := s.nextId, title := title, done := done }
  (task, { tasks := s.tasks ++ [task], nextId := s.nextId + 1 })

/-- The in-place mutation done by `InMemoryTaskRepository.update`: the
first task with the given id (the one `tasks.find` returns) has its
`title` and `done` overwritten; the array order is unchanged. -/
def updateFirst (tasks : List Task) (id : Nat) (title : Str) (done : Bool) : List Task :=
  match tasks with
  | [] => []
  | t :: ts =>
    if t.id == id then { t with title := title, done := done } :: ts
    else t :: updateFirst ts id title done

/-- `InMemoryTaskRepository.update`: find by id; if absent return `null`
and change nothing, otherwise overwrite `title`/`done` in place and
return the updated task. -/
def memUpdate (s : MemState) (id : Nat) (title : Str) (done : Bool) :
    Option Task × MemState :=
  match memGetById s.tasks id with
  | none => (none, s)
  | some t =>
    (some { t with title := title, done := done },
     { s with tasks := updateFirst s.tasks id title done })

/-- `InMemoryTaskRepository.delete`: `tasks = tasks.filter((t) => t.id !== id)`;
returns whether the length changed. -/
def memDelete (s : MemState) (id : Nat) : Bool × MemState :=
  let remaining := s.tasks.filter (fun t => t.id != id)
  (remaining.length != s.tasks.length, { s with tasks := remaining })

/-! ## Postgres repository (`PostgresTaskRepository`)

The SQL statements are embedded by their standard relational meaning over
a `tasks` table held as a list of rows plus the `SERIAL` sequence. -/

/-- One global single-character replacement,
`str.replace(/c/g, r)` at character granularity. -/
def replaceAllChar (c : Char) (r : Str) (s : Str) : Str :=
  s.flatMap (fun x => if x = c then r else [x])

/-- `escapeLike` from `PostgresTaskRepository`: three sequential global
replaces escaping `\`, `%`, `_`. -/
def escapeLike (s : Str) : Str :=
  replaceAllChar '_' ['\\', '_']
    (replaceAllChar '%' ['\\', '%']
      (replaceAllChar '\\' ['\\', '\\'] s))

/-- Matching one literal character `c` and continuing with `cont`. -/
def headMatches (c : Char) (cont : Str → Bool) : Str → Bool
  | [] => false
  | c2 :: t2 => c2 == c && cont t2

/-- Matching one arbitrary character (the `_` wildcard) and continuing. -/
def skipOne (cont : Str → Bool) : Str → Bool
  | [] => false
  | _ :: t2 => cont t2

/-- SQL `LIKE` matching with escape character `\`
(`%` matches any sequence, `_` any single character, `\c` the literal
character `c`). -/
def likeMatch : Str → Str → Bool
  | [], t => t.isEmpty
  | c :: p, t =>
    if c = '%' then
      t.tails.any (fun t2 => likeMatch p t2)
    else if c = '\\' then
      match p with
      | [] => false
      | e :: p2 => headMatches e (likeMatch p2) t
    else if c = '_' then
      skipOne (likeMatch p) t
    else
      headMatches c (likeMatch p) t

/-- SQL `ILIKE`: case-insensitive `LIKE` (both operands are
case-folded). -/
def ilike (text pattern : Str) : Bool :=
  likeMatch (lowerStr pattern) (lowerStr text)

/-- The Postgres search filter: when `search` is truthy, the clause
`title ILIKE $n ESCAPE '\'` is added with the bound pattern
`%${escapeLike(search)}%`. -/
def searchMatchesPg (search : Option Str) (t : Task) : Bool :=
  match search with
  | none => true
  | some s =>
    if s = [] then true
    else ilike t.title ('%' :: (escapeLike s ++ ['%']))

/-- The `WHERE` clause of `PostgresTaskRepository.list`: the conjunction
of the clauses present (`done = $n` and the `ILIKE` clause). -/
def pgFiltered (table : List Task) (q : Query) : List Task :=
  table.filter (fun t => doneMatches q.done t && searchMatchesPg q.search t)

/-- The `ORDER BY` relation of `PostgresTaskRepository.list`:
`ORDER BY id ASC|DESC` when the mapped sort column is `id`, otherwise
`ORDER BY col ASC|DESC, id ASC` (the `SORT_COLUMN` whitelist is the
identity on the validated enum, and `order === "desc" ? "DESC" : "ASC"`).
Column comparisons: integers and booleans by value, text by the same
code-point lexicographic order as the in-memory backend (the reference
collation of the spec). -/
def pgLe (sort : SortField) (order : SortOrder) (a b : Task) : Bool :=
  match sort with
  | .id =>
    match order with
    | .asc => a.id ≤ b.id
    | .desc => b.id ≤ a.id
  | .title =>
    if a.title = b.title then a.id ≤ b.id
    else
      match order with
      | .asc => strLt a.title b.title
      | .desc => strLt b.title a.title
  | .done =>
    if a.done = b.done then a.id ≤ b.id
    else
      match order with
      | .asc => decide (a.done.toNat < b.done.toNat)
      | .desc => decide (b.done.toNat < a.done.toNat)

/-- The rows of `PostgresTaskRepository.list` in `ORDER BY` order. -/
def pgSorted (table : List Task) (q : Query) : List Task :=
  sortBy (pgLe q.sort q.order) (pgFiltered table q)

/-- `PostgresTaskRepository.list`: one query with
`(COUNT(*) OVER())::int AS total` (the count of all rows matching the
`WHERE` clause, attached to every returned row), `LIMIT`/`OFFSET` applied
last, and `total = rows.length > 0 ? rows[0].total : 0`. -/
def pgList (table : List Task) (q : Query) : ListResult :=
  let rows := ((pgSorted table q).drop q.offset).take q.limit
  { items := rows
    total := if rows.length > 0 then (pgFiltered table q).length else 0 }

/-- The Postgres table state: rows plus the `SERIAL` sequence value. -/
structure PgState where
  table : List Task
  seq : Nat
deriving DecidableEq, Repr

/-- `PostgresTaskRepository.getById`:
`SELECT id, title, done FROM tasks WHERE id = $1` and `res.rows[0] || null`. -/
def pgGetById (table : List Task) (id : Nat) : Option Task :=
  (table.filter (fun t => t.id == id)).head?

/-- `PostgresTaskRepository.create`:
`INSERT INTO tasks (title, done) VALUES ($1, $2) RETURNING id, title, done`
with the backend-generated `SERIAL` id. -/
def pgCreate (s : PgState) (title : Str) (done : Bool) : Task × PgState :=
  let row : Task := { id := s.seq, title := title, done := done }
  (row, { table := s.table ++ [row], seq := s.seq + 1 })

/-- `PostgresTaskRepository.update`:
`UPDATE tasks SET title = $1, done = $2 WHERE id = $3 RETURNING id, title, done`
and `res.rows[0] || null`. -/
def pgUpdate (s : PgState) (id : Nat) (title : Str) (done : Bool) :
    Option Task × PgState :=
  ((if s.table.any (fun t => t.id == id) then
      some { id := id, title := title, done := done }
    else none),
   { s with table :=
      s.table.map (fun t =>
        if t.id == id then { t with title := title, done := done } else t) })

/-- `PostgresTaskRepository.delete`: `DELETE FROM tasks WHERE id = $1`
and `res.rowCount > 0`. -/
def pgDelete (s : PgState) (id : Nat) : Bool × PgState :=
  (s.table.countP (fun t => t.id == id) > 0,
   { s with table := s.table.filter (fun t => t.id != id) })

/-! ## Specification-level ordering relation

The contract's ordering (spec §4.1): sort by the requested field in the
requested direction, ties broken by ascending id. -/

/-- Strict order on the value of the selected sort field. -/
def fieldLt : SortField → Task → Task → Prop
  | .id, a, b => a.id < b.id
  | .title, a, b => strLt a.title b.title = true
  | .done, a, b => a.done.toNat < b.done.toNat

/-- Equality of the selected sort field. -/
def fieldEqv : SortField → Task → Task → Prop
  | .id, a, b => a.id = b.id
  | .title, a, b => a.title = b.title
  | .done, a, b => a.done = b.done

/-- `fieldLt` in the requested direction. -/
def fieldLtDir (sort : SortField) (order : SortOrder) (a b : Task) : Prop :=
  match order with
  | .asc => fieldLt sort a b
  | .desc => fieldLt sort b a

/-- The contract ordering: `a` may precede `b` iff `a` is strictly before
`b` on the sort field in the requested direction, or the sort fields are
equal and `a.id ≤ b.id` (ascending-id tie-break, regardless of order). -/
def tieOrdered (sort : SortField) (order : SortOrder) (a b : Task) : Prop :=
  fieldLtDir sort order a b ∨ (fieldEqv sort a b ∧ a.id ≤ b.id)

/-- The characters escaped by `escapeLike` (the `LIKE` wildcards and the
escape character itself). -/
def isLikeSpecial (c : Char) : Bool :=
  c = '\\' || c = '%' || c = '_'

/-! ## Operation sequences against the in-memory repository -/

/-- One repository call (the argument data of the five contract methods). -/
inductive Op where
  | list (q : Query)
  | getById (id : Nat)
  | create (title : Str) (done : Bool)
  | update (id : Nat) (title : Str) (done : Bool)
  | delete (id : Nat)
deriving DecidableEq, Repr

/-- `list` as a state transformer: it reads the task array
(`tasks`, `filtered.slice().sort(...)`, `sorted.slice(...)` — no
reassignment of `tasks` and no element mutation), so the state it leaves
behind is the state it was given. -/
def memListOp (s : MemState) (q : Query) : ListResult × MemState :=
  (memList s.tasks q, s)

/-- The state reached after one repository call. -/
def applyOp (s : MemState) : Op → MemState
  | .list q => (memListOp s q).2
  | .getById _ => s
  | .create title done => (memCreate s title done).2
  | .update id title done => (memUpdate s id title done).2
  | .delete id => (memDelete s id).2

/-- A fresh repository over an empty seed (`InMemoryTaskRepository([])`). -/
def emptyRepo : MemState := InMemoryTaskRepository []

/-- The state after running a sequence of calls on a fresh repository. -/
def runOps (ops : List Op) : MemState := ops.foldl applyOp emptyRepo

/-- The ids handed out by the `create` calls of an operation sequence, in
call order. -/
def createdIds (s : MemState) : List Op → List Nat
  | [] => []
  | op :: ops =>
    match op with
    | .create title done =>
      (memCreate s title done).1.id :: createdIds (applyOp s (.create title done)) ops
    | _ => createdIds (applyOp s op) ops

/-- Number of `create` calls in a sequence. -/
def countCreates (ops : List Op) : Nat :=
  ops.countP (fun op => match op with | .create _ _ => true | _ => false)

/-! ## Sample data (fixtures instantiating the general theorems) -/

/-- A sample query: first page of two, sorted by title ascending. -/
def sampleQuery : Query :=
  { limit := 2, offset := 0, done := none, search := none, sort := .title, order := .asc }

/-- A sample query hitting the empty-page edge: `limit = 0`. -/
def zeroLimitQuery : Query :=
  { limit := 0, offset := 0, done := none, search := none, sort := .id, order := .asc }

/-- A sample query whose offset lies beyond every matching row. -/
def beyondOffsetQuery : Query :=
  { limit := 20, offset := 5, done := none, search := none, sort := .id, order := .asc }

def sampleTaskA : Task := { id := 1, title := ['b'], done := false }

def sampleTaskB : Task := { id := 2, title := ['a'], done := true }

def sampleTaskC : Task := { id := 3, title := ['a'], done := false }

/-! # Theorems

## Order lemmas for `strLt` -/

theorem strLt_iff : ∀ (a b : Str), strLt a b = true ↔ a < b
  | [], [] => by
    simp [strLt]
  | [], _ :: _ => by
    simp [strLt]
    exact List.Lex.nil
  | _ :: _, [] => by
    simp [strLt]
  | x :: xs, y :: ys => by
    constructor
    · intro h
      rw [strLt] at h
      by_cases hxy : x < y
      · exact List.Lex.rel hxy
      · rw [if_neg hxy] at h
        by_cases hyx : y < x
        · rw [if_pos hyx] at h
          exact absurd h (by simp)
        · rw [if_neg hyx] at h
          have hxyeq : x = y := le_antisymm (le_of_not_lt hyx) (le_of_not_lt hxy)
          subst hxyeq
          exact List.Lex.cons ((strLt_iff xs ys).mp h)
    · intro h
      have h2 : List.Lex (· < ·) (x :: xs) (y :: ys) := h
      cases h2 with
      | cons h3 =>
        rw [strLt, if_neg (lt_irrefl x), if_neg (lt_irrefl x)]
        exact (strLt_iff xs ys).mpr h3
      | rel h3 =>
        rw [strLt, if_pos h3]

theorem strLt_irrefl (s : Str) : strLt s s = false := by
  rw [Bool.eq_false_iff]
  intro h
  exact absurd ((strLt_iff s s).mp h) (lt_irrefl s)

theorem strLt_trans {a b c : Str} (h1 : strLt a b = true) (h2 : strLt b c = true) :
    strLt a c = true :=
  (strLt_iff a c).mpr (lt_trans ((strLt_iff a b).mp h1) ((strLt_iff b c).mp h2))

theorem strLt_asymm {a b : Str} (h : strLt a b = true) : strLt b a = false := by
  rw [Bool.eq_false_iff]
  intro h2
  exact absurd ((strLt_iff b a).mp h2) (lt_asymm ((strLt_iff a b).mp h))

theorem strLt_total {a b : Str} (h : a ≠ b) : strLt a b = true ∨ strLt b a = true := by
  rcases lt_trichotomy a b with h1 | h1 | h1
  · exact Or.inl ((strLt_iff a b).mpr h1)
  · exact absurd h1 h
  · exact Or.inr ((strLt_iff b a).mpr h1)

/-! ## Stable sort lemmas -/

theorem orderedInsert_perm (le : Task → Task → Bool) (a : Task) (l : List Task) :
    (orderedInsert le a l).Perm (a :: l) := by
  induction l with
  | nil => exact List.Perm.refl _
  | cons b t ih =>
    rw [orderedInsert]
    split
    · exact List.Perm.refl _
    · exact (ih.cons b).trans (List.Perm.swap a b t)

theorem sortBy_perm (le : Task → Task → Bool) (l : List Task) :
    (sortBy le l).Perm l := by
  induction l with
  | nil => exact List.Perm.refl _
  | cons a t ih =>
    rw [sortBy]
    exact (orderedInsert_perm le a (sortBy le t)).trans (ih.cons a)

theorem pairwise_orderedInsert (le : Task → Task → Bool)
    (trans : ∀ a b c, le a b = true → le b c = true → le a c = true)
    (total : ∀ a b, le a b = true ∨ le b a = true)
    (a : Task) (l : List Task) (h : l.Pairwise (le · ·)) :
    (orderedInsert le a l).Pairwise (le · ·) := by
  induction l with
  | nil => simp [orderedInsert]
  | cons b t ih =>
    rcases List.pairwise_cons.mp h with ⟨hb, ht⟩
    rw [orderedInsert]
    split
    · rename_i hab
      refine List.pairwise_cons.mpr ⟨?_, h⟩
      intro x hx
      rcases List.mem_cons.mp hx with hx | hx
      · subst hx
        exact hab
      · exact trans a b x hab (hb x hx)
    · rename_i hab
      have hba : le b a = true := by
        rcases total a b with h2 | h2
        · exact absurd h2 hab
        · exact h2
      refine List.pairwise_cons.mpr ⟨?_, ih ht⟩
      intro x hx
      rw [(orderedInsert_perm le a t).mem_iff] at hx
      rcases List.mem_cons.mp hx with hx | hx
      · subst hx
        exact hba
      · exact hb x hx

theorem pairwise_sortBy (le : Task → Task → Bool)
    (trans : ∀ a b c, le a b = true → le b c = true → le a c = true)
    (total : ∀ a b, le a b = true ∨ le b a = true)
    (l : List Task) : (sortBy le l).Pairwise (le · ·) := by
  induction l with
  | nil => simp [sortBy]
  | cons a t ih => exact pairwise_orderedInsert le trans total a (sortBy le t) ih

/-- Two sorted lists that are permutations of each other coincide, as long
as the relation is antisymmetric on their members. -/
theorem eq_of_perm_of_pairwise {le : Task → Task → Bool} :
    ∀ {l₁ l₂ : List Task}, l₁.Perm l₂ → l₁.Pairwise (le · ·) → l₂.Pairwise (le · ·) →
      (∀ a ∈ l₁, ∀ b ∈ l₁, le a b = true → le b a = true → a = b) → l₁ = l₂ := by
  intro l₁
  induction l₁ with
  | nil =>
    intro l₂ hp _ _ _
    exact (List.Perm.nil_eq hp).symm ▸ rfl
  | cons a t ih =>
    intro l₂ hp h1 h2 anti
    cases l₂ with
    | nil => exact absurd hp.symm.nil_eq (by simp)
    | cons b t₂ =>
      have hab : a = b := by
        have ha2 : a ∈ b :: t₂ := hp.subset (List.mem_cons_self a t)
        have hb1 : b ∈ a :: t := hp.symm.subset (List.mem_cons_self b t₂)
        rcases List.mem_cons.mp ha2 with h | ha2
        · exact h
        · rcases List.mem_cons.mp hb1 with h | hb1
          · exact h.symm
          · have hba : le b a = true := (List.pairwise_cons.mp h2).1 a ha2
            have hab : le a b = true := (List.pairwise_cons.mp h1).1 b hb1
            exact anti a (List.mem_cons_self a t) b (List.mem_cons.mpr (Or.inr hb1)) hab hba
      subst hab
      have ht : t = t₂ :=
        ih hp.cons_inv (List.pairwise_cons.mp h1).2 (List.pairwise_cons.mp h2).2
          (fun x hx y hy => anti x (List.mem_cons.mpr (Or.inr hx)) y (List.mem_cons.mpr (Or.inr hy)))
      rw [ht]

/-! ## `LIKE`-escaping lemmas -/

theorem char_toNat_inj {c d : Char} (h : c.toNat = d.toNat) : c = d :=
  Char.ext (UInt32.toNat.inj h)

theorem toNat_ofNat_add32 (n : Nat) (h65 : 65 ≤ n) (h90 : n ≤ 90) :
    (Char.ofNat (n + 32)).toNat = n + 32 := by
  have hv : (n + 32).isValidChar := by
    left
    omega
  simp [Char.ofNat, hv, Char.ofNatAux, Char.toNat, UInt32.toNat]

/-- Case folding maps no character onto the wildcard or escape characters
and fixes them. -/
theorem isLikeSpecial_toLower (c : Char) :
    isLikeSpecial (Char.toLower c) = isLikeSpecial c := by
  by_cases h : c.toNat ≥ 65 ∧ c.toNat ≤ 90
  · have hlow : Char.toLower c = Char.ofNat (c.toNat + 32) := by
      rw [Char.toLower]
      exact if_pos h
    have ht := toNat_ofNat_add32 c.toNat h.1 h.2
    rw [hlow]
    have h1 : isLikeSpecial (Char.ofNat (c.toNat + 32)) = false := by
      simp only [isLikeSpecial, Bool.or_eq_false_iff, decide_eq_false_iff_not]
      refine ⟨⟨?_, ?_⟩, ?_⟩ <;> intro he <;> rw [he] at ht
      · rw [show ('\\' : Char).toNat = 92 from by decide] at ht
        omega
      · rw [show ('%' : Char).toNat = 37 from by decide] at ht
        omega
      · rw [show ('_' : Char).toNat = 95 from by decide] at ht
        omega
    have h2 : isLikeSpecial c = false := by
      simp only [isLikeSpecial, Bool.or_eq_false_iff, decide_eq_false_iff_not]
      refine ⟨⟨?_, ?_⟩, ?_⟩ <;> intro he <;> rw [he] at h
      · exact absurd h (by decide)
      · exact absurd h (by decide)
      · exact absurd h (by decide)
    rw [h1, h2]
  · have hlow : Char.toLower c = c := by
      rw [Char.toLower]
      exact if_neg h
    rw [hlow]

theorem toLower_backslash : Char.toLower '\\' = '\\' := by decide

theorem toLower_percent : Char.toLower '%' = '%' := by decide

theorem escapeLike_nil : escapeLike [] = [] := rfl

theorem escapeLike_cons (c : Char) (s : Str) :
    escapeLike (c :: s) = (if isLikeSpecial c then ['\\', c] else [c]) ++ escapeLike s := by
  by_cases hb : c = '\\'
  · subst hb
    simp [escapeLike, replaceAllChar, isLikeSpecial]
  · by_cases hp : c = '%'
    · subst hp
      simp [escapeLike, replaceAllChar, isLikeSpecial]
    · by_cases hu : c = '_'
      · subst hu
        simp [escapeLike, replaceAllChar, isLikeSpecial]
      · simp [escapeLike, replaceAllChar, isLikeSpecial, hb, hp, hu]

theorem likeMatch_cons (c : Char) (p t : Str) :
    likeMatch (c :: p) t =
      if c = '%' then
        t.tails.any (fun t2 => likeMatch p t2)
      else if c = '\\' then
        (match p with
         | [] => false
         | e :: p2 => headMatches e (likeMatch p2) t)
      else if c = '_' then
        skipOne (likeMatch p) t
      else
        headMatches c (likeMatch p) t := by
  rw [likeMatch.eq_def]
  exact rfl

theorem likeMatch_percent (p t : Str) :
    likeMatch ('%' :: p) t = t.tails.any (fun t2 => likeMatch p t2) := by
  rw [likeMatch_cons]
  rw [if_pos rfl]

theorem likeMatch_nil_percent (t : Str) : likeMatch ['%'] t = true := by
  rw [likeMatch_percent, List.any_eq_true]
  refine ⟨[], (List.mem_tails _ _).mpr List.nil_suffix, ?_⟩
  rfl

/-- The escaped search string, used as a `LIKE` pattern followed by `%`,
matches exactly the texts that start with the (case-folded) search
string. -/
theorem likeMatch_escaped (s : Str) : ∀ (t : Str),
    likeMatch (lowerStr (escapeLike s) ++ ['%']) t = (lowerStr s).isPrefixOf t := by
  induction s with
  | nil =>
    intro t
    rw [escapeLike_nil]
    show likeMatch ['%'] t = List.isPrefixOf [] t
    rw [likeMatch_nil_percent, List.isPrefixOf]
  | cons c cs ih =>
    intro t
    rw [escapeLike_cons]
    have key : headMatches (Char.toLower c) (likeMatch (lowerStr (escapeLike cs) ++ ['%'])) t =
        (Char.toLower c :: lowerStr cs).isPrefixOf t := by
      cases t with
      | nil => rfl
      | cons c2 t2 =>
        show (c2 == Char.toLower c && likeMatch (lowerStr (escapeLike cs) ++ ['%']) t2) =
          (Char.toLower c == c2 && (lowerStr cs).isPrefixOf t2)
        rw [ih t2]
        by_cases hc : c2 = Char.toLower c
        · subst hc
          rfl
        · rw [beq_false_of_ne hc, beq_false_of_ne (fun h => hc h.symm)]
    by_cases hsp : isLikeSpecial c = true
    · rw [if_pos hsp]
      show likeMatch ('\\' :: Char.toLower c :: (lowerStr (escapeLike cs) ++ ['%'])) t =
        (Char.toLower c :: lowerStr cs).isPrefixOf t
      rw [likeMatch_cons]
      rw [if_neg (by decide), if_pos rfl]
      exact key
    · have hsp2 : isLikeSpecial c = false := by
        rw [Bool.eq_false_iff]
        exact hsp
      rw [if_neg (by rw [hsp2]; exact Bool.false_ne_true)]
      have hsp3 : isLikeSpecial (Char.toLower c) = false := by
        rw [isLikeSpecial_toLower, hsp2]
      have hne : Char.toLower c ≠ '%' ∧ Char.toLower c ≠ '\\' ∧ Char.toLower c ≠ '_' := by
        simp only [isLikeSpecial, Bool.or_eq_false_iff, decide_eq_false_iff_not] at hsp3
        exact ⟨hsp3.1.2, hsp3.1.1, hsp3.2⟩
      show likeMatch (Char.toLower c :: (lowerStr (escapeLike cs) ++ ['%'])) t =
        (Char.toLower c :: lowerStr cs).isPrefixOf t
      rw [likeMatch_cons]
      rw [if_neg hne.1, if_neg hne.2.1, if_neg hne.2.2]
      exact key

/-- The full pattern `%escapeLike(search)%` under `ILIKE` is exactly
case-insensitive substring containment. -/
theorem ilike_escaped_pattern (s t : Str) :
    ilike t ('%' :: (escapeLike s ++ ['%'])) = includesSub (lowerStr t) (lowerStr s) := by
  rw [ilike]
  have h1 : lowerStr ('%' :: (escapeLike s ++ ['%'])) =
      '%' :: (lowerStr (escapeLike s) ++ ['%']) := by
    simp [lowerStr, toLower_percent]
  rw [h1, likeMatch_percent, includesSub]
  simp only [likeMatch_escaped]

/-- Both backends apply the same search filter. -/
theorem searchMatches_eq (search : Option Str) (t : Task) :
    searchMatchesPg search t = searchMatchesMem search t := by
  cases search with
  | none => rfl
  | some s =>
    rw [searchMatchesPg, searchMatchesMem]
    by_cases hs : s = []
    · rw [if_pos hs, if_pos hs]
    · rw [if_neg hs, if_neg hs]
      exact ilike_escaped_pattern s t.title

/-! ## Comparator characterizations -/

theorem fieldLt_irrefl (f : SortField) (a : Task) : ¬ fieldLt f a a := by
  cases f with
  | id => exact lt_irrefl _
  | title =>
    show ¬ strLt a.title a.title = true
    rw [strLt_irrefl]
    exact Bool.false_ne_true
  | done => exact lt_irrefl _

theorem fieldLt_trans {f : SortField} {a b c : Task}
    (h1 : fieldLt f a b) (h2 : fieldLt f b c) : fieldLt f a c := by
  cases f with
  | id => exact lt_trans h1 h2
  | title => exact strLt_trans h1 h2
  | done => exact lt_trans h1 h2

theorem fieldEqv_refl (f : SortField) (a : Task) : fieldEqv f a a := by
  cases f <;> rfl

theorem fieldEqv_symm {f : SortField} {a b : Task} (h : fieldEqv f a b) : fieldEqv f b a := by
  cases f <;> exact h.symm

theorem fieldEqv_trans {f : SortField} {a b c : Task}
    (h1 : fieldEqv f a b) (h2 : fieldEqv f b c) : fieldEqv f a c := by
  cases f <;> exact h1.trans h2

theorem fieldLt_congr_left {f : SortField} {a b c : Task}
    (he : fieldEqv f a b) (h : fieldLt f a c) : fieldLt f b c := by
  cases f with
  | id =>
    show b.id < c.id
    have he2 : a.id = b.id := he
    rw [← he2]
    exact h
  | title =>
    show strLt b.title c.title = true
    have he2 : a.title = b.title := he
    rw [← he2]
    exact h
  | done =>
    show b.done.toNat < c.done.toNat
    have he2 : a.done = b.done := he
    rw [← he2]
    exact h

theorem fieldLt_congr_right {f : SortField} {a b c : Task}
    (he : fieldEqv f b c) (h : fieldLt f a b) : fieldLt f a c := by
  cases f with
  | id =>
    show a.id < c.id
    have he2 : b.id = c.id := he
    rw [← he2]
    exact h
  | title =>
    show strLt a.title c.title = true
    have he2 : b.title = c.title := he
    rw [← he2]
    exact h
  | done =>
    show a.done.toNat < c.done.toNat
    have he2 : b.done = c.done := he
    rw [← he2]
    exact h

theorem not_fieldLt_of_eqv {f : SortField} {a b : Task} (he : fieldEqv f a b) :
    ¬ fieldLt f a b := by
  intro h
  exact fieldLt_irrefl f b (fieldLt_congr_left he h)

theorem fieldEqv_or_lt (f : SortField) (a b : Task) :
    fieldEqv f a b ∨ fieldLt f a b ∨ fieldLt f b a := by
  cases f with
  | id =>
    rcases Nat.lt_trichotomy a.id b.id with h | h | h
    · exact Or.inr (Or.inl h)
    · exact Or.inl h
    · exact Or.inr (Or.inr h)
  | title =>
    by_cases he : a.title = b.title
    · exact Or.inl he
    · rcases strLt_total he with h | h
      · exact Or.inr (Or.inl h)
      · exact Or.inr (Or.inr h)
  | done =>
    by_cases he : a.done = b.done
    · exact Or.inl he
    · cases hA : a.done <;> cases hB : b.done
      · rw [hA, hB] at he
        exact absurd rfl he
      · refine Or.inr (Or.inl ?_)
        show a.done.toNat < b.done.toNat
        rw [hA, hB]
        decide
      · refine Or.inr (Or.inr ?_)
        show b.done.toNat < a.done.toNat
        rw [hA, hB]
        decide
      · rw [hA, hB] at he
        exact absurd rfl he

theorem compareValues_eq_zero_iff {f : SortField} {a b : Task} :
    compareValues f a b = 0 ↔ fieldEqv f a b := by
  cases f with
  | id =>
    show (if a.id = b.id then (0 : Int) else if a.id < b.id then -1 else 1) = 0 ↔ a.id = b.id
    split_ifs with h1 h2 <;> simp [h1] <;> omega
  | title =>
    show (if a.title = b.title then (0 : Int) else if strLt a.title b.title then -1 else 1) = 0
      ↔ a.title = b.title
    split_ifs with h1 h2 <;> simp [h1] <;> omega
  | done =>
    show (if a.done = b.done then (0 : Int) else if a.done.toNat < b.done.toNat then -1 else 1) = 0
      ↔ a.done = b.done
    split_ifs with h1 h2 <;> simp [h1] <;> omega

theorem compareValues_eq_negOne_iff {f : SortField} {a b : Task} :
    compareValues f a b = -1 ↔ fieldLt f a b := by
  cases f with
  | id =>
    show (if a.id = b.id then (0 : Int) else if a.id < b.id then -1 else 1) = -1 ↔ a.id < b.id
    split_ifs with h1 h2 <;> simp <;> omega
  | title =>
    show (if a.title = b.title then (0 : Int) else if strLt a.title b.title then -1 else 1) = -1
      ↔ strLt a.title b.title = true
    split_ifs with h1 h2
    · rw [h1, strLt_irrefl]
      simp
    · simp [h2]
    · simp [h2]
  | done =>
    show (if a.done = b.done then (0 : Int) else if a.done.toNat < b.done.toNat then -1 else 1) = -1
      ↔ a.done.toNat < b.done.toNat
    cases hA : a.done <;> cases hB : b.done <;> decide

theorem compareValues_eq_one_iff {f : SortField} {a b : Task} :
    compareValues f a b = 1 ↔ fieldLt f b a := by
  cases f with
  | id =>
    show (if a.id = b.id then (0 : Int) else if a.id < b.id then -1 else 1) = 1 ↔ b.id < a.id
    split_ifs with h1 h2 <;> simp <;> omega
  | title =>
    show (if a.title = b.title then (0 : Int) else if strLt a.title b.title then -1 else 1) = 1
      ↔ strLt b.title a.title = true
    split_ifs with h1 h2
    · rw [h1, strLt_irrefl]
      simp
    · rw [strLt_asymm h2]
      simp
    · rcases strLt_total h1 with h | h
      · exact absurd h h2
      · rw [h]
        simp
  | done =>
    show (if a.done = b.done then (0 : Int) else if a.done.toNat < b.done.toNat then -1 else 1) = 1
      ↔ b.done.toNat < a.done.toNat
    cases hA : a.done <;> cases hB : b.done <;> decide

theorem compareValues_cases (f : SortField) (a b : Task) :
    compareValues f a b = -1 ∨ compareValues f a b = 0 ∨ compareValues f a b = 1 := by
  cases f <;> dsimp [compareValues] <;> split_ifs <;> simp

theorem compareValuesId_le_iff {a b : Task} :
    compareValues .id a b ≤ 0 ↔ a.id ≤ b.id := by
  show (if a.id = b.id then (0 : Int) else if a.id < b.id then -1 else 1) ≤ 0 ↔ a.id ≤ b.id
  split_ifs with h1 h2 <;> simp <;> omega

theorem fieldLt_asymm {f : SortField} {a b : Task} (h : fieldLt f a b) : ¬ fieldLt f b a := by
  intro h2
  exact fieldLt_irrefl f a (fieldLt_trans h h2)

theorem fieldLtDir_trans {f : SortField} {o : SortOrder} {a b c : Task}
    (h1 : fieldLtDir f o a b) (h2 : fieldLtDir f o b c) : fieldLtDir f o a c := by
  cases o with
  | asc => exact fieldLt_trans h1 h2
  | desc => exact fieldLt_trans h2 h1

theorem fieldLtDir_congr_left {f : SortField} {o : SortOrder} {a b c : Task}
    (he : fieldEqv f a b) (h : fieldLtDir f o a c) : fieldLtDir f o b c := by
  cases o with
  | asc => exact fieldLt_congr_left he h
  | desc => exact fieldLt_congr_right he h

theorem fieldLtDir_congr_right {f : SortField} {o : SortOrder} {a b c : Task}
    (he : fieldEqv f b c) (h : fieldLtDir f o a b) : fieldLtDir f o a c := by
  cases o with
  | asc => exact fieldLt_congr_right he h
  | desc => exact fieldLt_congr_left he h

theorem not_fieldLtDir_of_eqv {f : SortField} {o : SortOrder} {a b : Task}
    (he : fieldEqv f a b) : ¬ fieldLtDir f o a b := by
  cases o with
  | asc => exact not_fieldLt_of_eqv he
  | desc => exact not_fieldLt_of_eqv (fieldEqv_symm he)

theorem fieldLtDir_asymm {f : SortField} {o : SortOrder} {a b : Task}
    (h : fieldLtDir f o a b) : ¬ fieldLtDir f o b a := by
  cases o with
  | asc => exact fieldLt_asymm h
  | desc => exact fieldLt_asymm h

theorem tieOrdered_trans {f : SortField} {o : SortOrder} {a b c : Task}
    (h1 : tieOrdered f o a b) (h2 : tieOrdered f o b c) : tieOrdered f o a c := by
  rcases h1 with h1 | ⟨he1, hi1⟩
  · rcases h2 with h2 | ⟨he2, hi2⟩
    · exact Or.inl (fieldLtDir_trans h1 h2)
    · exact Or.inl (fieldLtDir_congr_right he2 h1)
  · rcases h2 with h2 | ⟨he2, hi2⟩
    · exact Or.inl (fieldLtDir_congr_left (fieldEqv_symm he1) h2)
    · exact Or.inr ⟨fieldEqv_trans he1 he2, le_trans hi1 hi2⟩

theorem tieOrdered_total (f : SortField) (o : SortOrder) (a b : Task) :
    tieOrdered f o a b ∨ tieOrdered f o b a := by
  rcases fieldEqv_or_lt f a b with he | hl | hl
  · rcases Nat.le_total a.id b.id with hle | hle
    · exact Or.inl (Or.inr ⟨he, hle⟩)
    · exact Or.inr (Or.inr ⟨fieldEqv_symm he, hle⟩)
  · cases o with
    | asc => exact Or.inl (Or.inl hl)
    | desc => exact Or.inr (Or.inl hl)
  · cases o with
    | asc => exact Or.inr (Or.inl hl)
    | desc => exact Or.inl (Or.inl hl)

theorem tieOrdered_antisymm {f : SortField} {o : SortOrder} {a b : Task}
    (h1 : tieOrdered f o a b) (h2 : tieOrdered f o b a) :
    fieldEqv f a b ∧ a.id = b.id := by
  rcases h1 with h1 | ⟨he1, hi1⟩
  · rcases h2 with h2 | ⟨he2, hi2⟩
    · exact absurd h2 (fieldLtDir_asymm h1)
    · exact absurd h1 (not_fieldLtDir_of_eqv (fieldEqv_symm he2))
  · rcases h2 with h2 | ⟨he2, hi2⟩
    · exact absurd h2 (not_fieldLtDir_of_eqv (fieldEqv_symm he1))
    · exact ⟨he1, le_antisymm hi1 hi2⟩

/-- The in-memory comparator orders `a` no later than `b` exactly when the
contract ordering does. -/
theorem memCmp_le_zero_iff (f : SortField) (o : SortOrder) (a b : Task) :
    memCmp f o a b ≤ 0 ↔ tieOrdered f o a b := by
  show (if compareValues f a b ≠ 0 then compareValues f a b * direction o
        else compareValues .id a b) ≤ 0 ↔ tieOrdered f o a b
  rcases compareValues_cases f a b with hc | hc | hc
  · rw [if_pos (by rw [hc]; decide)]
    rw [hc]
    have hlt : fieldLt f a b := compareValues_eq_negOne_iff.mp hc
    cases o with
    | asc =>
      refine iff_of_true (by simp [direction]) (Or.inl hlt)
    | desc =>
      refine iff_of_false (by simp [direction]) ?_
      rintro (h | ⟨he, _⟩)
      · exact fieldLt_asymm hlt h
      · exact not_fieldLt_of_eqv he hlt
  · rw [if_neg (by simp [hc])]
    have he : fieldEqv f a b := compareValues_eq_zero_iff.mp hc
    rw [compareValuesId_le_iff]
    constructor
    · intro hle
      exact Or.inr ⟨he, hle⟩
    · rintro (h | ⟨_, hle⟩)
      · exact absurd h (not_fieldLtDir_of_eqv he)
      · exact hle
  · rw [if_pos (by rw [hc]; decide)]
    rw [hc]
    have hlt : fieldLt f b a := compareValues_eq_one_iff.mp hc
    cases o with
    | asc =>
      refine iff_of_false (by simp [direction]) ?_
      rintro (h | ⟨he, _⟩)
      · exact fieldLt_asymm hlt h
      · exact not_fieldLt_of_eqv (fieldEqv_symm he) hlt
    | desc =>
      refine iff_of_true (by simp [direction]) (Or.inl hlt)

theorem memLe_iff (f : SortField) (o : SortOrder) (a b : Task) :
    memLe f o a b = true ↔ tieOrdered f o a b := by
  simp only [memLe, decide_eq_true_eq]
  exact memCmp_le_zero_iff f o a b

theorem memLe_trans (f : SortField) (o : SortOrder) :
    ∀ a b c, memLe f o a b = true → memLe f o b c = true → memLe f o a c = true := by
  intro a b c h1 h2
  exact (memLe_iff f o a c).mpr
    (tieOrdered_trans ((memLe_iff f o a b).mp h1) ((memLe_iff f o b c).mp h2))

theorem memLe_total (f : SortField) (o : SortOrder) :
    ∀ a b, memLe f o a b = true ∨ memLe f o b a = true := by
  intro a b
  rcases tieOrdered_total f o a b with h | h
  · exact Or.inl ((memLe_iff f o a b).mpr h)
  · exact Or.inr ((memLe_iff f o b a).mpr h)

/-- The `ORDER BY` relation of the relational backend is the contract
ordering as well. -/
theorem pgLe_iff (f : SortField) (o : SortOrder) (a b : Task) :
    pgLe f o a b = true ↔ tieOrdered f o a b := by
  cases f with
  | id =>
    cases o with
    | asc =>
      show decide (a.id ≤ b.id) = true ↔ (a.id < b.id) ∨ (a.id = b.id ∧ a.id ≤ b.id)
      simp only [decide_eq_true_eq]
      omega
    | desc =>
      show decide (b.id ≤ a.id) = true ↔ (b.id < a.id) ∨ (a.id = b.id ∧ a.id ≤ b.id)
      simp only [decide_eq_true_eq]
      omega
  | title =>
    show (if a.title = b.title then decide (a.id ≤ b.id)
          else match o with
               | .asc => strLt a.title b.title
               | .desc => strLt b.title a.title) = true ↔ tieOrdered .title o a b
    by_cases he : a.title = b.title
    · rw [if_pos he]
      simp only [decide_eq_true_eq]
      constructor
      · intro hle
        exact Or.inr ⟨he, hle⟩
      · rintro (h | ⟨_, hle⟩)
        · exact absurd h (not_fieldLtDir_of_eqv he)
        · exact hle
    · rw [if_neg he]
      cases o with
      | asc =>
        constructor
        · intro h
          exact Or.inl h
        · rintro (h | ⟨he2, _⟩)
          · exact h
          · exact absurd he2 he
      | desc =>
        constructor
        · intro h
          exact Or.inl h
        · rintro (h | ⟨he2, _⟩)
          · exact h
          · exact absurd he2 he
  | done =>
    show (if a.done = b.done then decide (a.id ≤ b.id)
          else match o with
               | .asc => decide (a.done.toNat < b.done.toNat)
               | .desc => decide (b.done.toNat < a.done.toNat)) = true ↔ tieOrdered .done o a b
    by_cases he : a.done = b.done
    · rw [if_pos he]
      simp only [decide_eq_true_eq]
      constructor
      · intro hle
        exact Or.inr ⟨he, hle⟩
      · rintro (h | ⟨_, hle⟩)
        · exact absurd h (not_fieldLtDir_of_eqv he)
        · exact hle
    · rw [if_neg he]
      cases o with
      | asc =>
        simp only [decide_eq_true_eq]
        constructor
        · intro h
          exact Or.inl h
        · rintro (h | ⟨he2, _⟩)
          · exact h
          · exact absurd he2 he
      | desc =>
        simp only [decide_eq_true_eq]
        constructor
        · intro h
          exact Or.inl h
        · rintro (h | ⟨he2, _⟩)
          · exact h
          · exact absurd he2 he

/-- The two backends order rows identically. -/
theorem memLe_eq_pgLe (f : SortField) (o : SortOrder) (a b : Task) :
    memLe f o a b = pgLe f o a b :=
  Bool.coe_iff_coe.mp ((memLe_iff f o a b).trans (pgLe_iff f o a b).symm)

theorem memLe_antisym_ids {f : SortField} {o : SortOrder} {a b : Task}
    (h1 : memLe f o a b = true) (h2 : memLe f o b a = true) :
    fieldEqv f a b ∧ a.id = b.id :=
  tieOrdered_antisymm ((memLe_iff f o a b).mp h1) ((memLe_iff f o b a).mp h2)

/-! ## Small list helpers -/

theorem find?_eq_head?_filter (p : Task → Bool) :
    ∀ (l : List Task), l.find? p = (l.filter p).head? := by
  intro l
  induction l with
  | nil => rfl
  | cons a t ih =>
    by_cases h : p a = true
    · rw [List.find?_cons_of_pos _ h, List.filter_cons_of_pos h]
      rfl
    · rw [List.find?_cons_of_neg _ h, List.filter_cons_of_neg h]
      exact ih

theorem filter_id_length_le_one {l : List Task} (hnd : (l.map Task.id).Nodup) (id : Nat) :
    (l.filter (fun t => t.id == id)).length ≤ 1 := by
  induction l with
  | nil => simp
  | cons a t ih =>
    rw [List.map_cons, List.nodup_cons] at hnd
    by_cases h : a.id = id
    · rw [List.filter_cons, if_pos (by simp [h])]
      have hnil : t.filter (fun x => x.id == id) = [] := by
        rw [List.filter_eq_nil_iff]
        intro x hx hc
        apply hnd.1
        rw [List.mem_map]
        refine ⟨x, hx, ?_⟩
        rw [beq_iff_eq] at hc
        rw [hc, h]
      rw [hnil]
      simp
    · rw [List.filter_cons, if_neg (by simp [h])]
      exact ih hnd.2

theorem perm_eq_of_length_le_one :
    ∀ {l₁ l₂ : List Task}, l₁.Perm l₂ → l₁.length ≤ 1 → l₁ = l₂
  | [], _, hp, _ => List.Perm.nil_eq hp
  | [_], _, hp, _ => List.singleton_perm.mp hp
  | _ :: _ :: _, _, _, hl => absurd hl (by simp only [List.length_cons]; omega)

theorem any_eq_decide_countP (l : List Task) (p : Task → Bool) :
    l.any p = decide (0 < l.countP p) := by
  apply Bool.coe_iff_coe.mp
  rw [List.any_eq_true, decide_eq_true_eq]
  exact List.countP_pos_iff.symm

theorem length_filter_bne_length (l : List Task) (p : Task → Bool) :
    ((l.filter p).length != l.length) = l.any (fun t => !(p t)) := by
  apply Bool.coe_iff_coe.mp
  rw [bne_iff_ne, List.any_eq_true]
  constructor
  · intro h
    by_contra hc
    push_neg at hc
    apply h
    rw [List.filter_length_eq_length]
    intro a ha
    have := hc a ha
    simp at this
    exact this
  · rintro ⟨x, hx, hpx⟩ hlen
    rw [List.filter_length_eq_length] at hlen
    have := hlen x hx
    simp [this] at hpx

/-! ## C3: deterministic sort with ascending-id tie-break -/

/-- C3: in both backends, the items of `list` are sorted by the requested
field in the requested direction, with ties on the sort field broken by
ascending id, for both orders. -/
theorem C3_list_sorted_tiebreak (tasks table : List Task) (q : Query) :
    (memList tasks q).items.Pairwise (tieOrdered q.sort q.order)
  ∧ (pgList table q).items.Pairwise (tieOrdered q.sort q.order) := by
  constructor
  · have hp : (memSorted tasks q).Pairwise (fun a b => memLe q.sort q.order a b = true) :=
      pairwise_sortBy _ (memLe_trans _ _) (memLe_total _ _) _
    have hp2 : (memSorted tasks q).Pairwise (tieOrdered q.sort q.order) :=
      hp.imp (fun h => (memLe_iff _ _ _ _).mp h)
    exact List.Pairwise.sublist
      ((List.take_sublist _ _).trans (List.drop_sublist _ _)) hp2
  · have hp : (pgSorted table q).Pairwise (fun a b => pgLe q.sort q.order a b = true) := by
      apply pairwise_sortBy
      · intro a b c h1 h2
        rw [← memLe_eq_pgLe] at h1 h2 ⊢
        exact memLe_trans _ _ a b c h1 h2
      · intro a b
        rw [← memLe_eq_pgLe, ← memLe_eq_pgLe]
        exact memLe_total _ _ a b
    have hp2 : (pgSorted table q).Pairwise (tieOrdered q.sort q.order) :=
      hp.imp (fun h => (pgLe_iff _ _ _ _).mp h)
    exact List.Pairwise.sublist
      ((List.take_sublist _ _).trans (List.drop_sublist _ _)) hp2

/-! ## C7: update on an absent id -/

/-- C7: in both backends, updating a nonexistent id returns absent and
leaves the store entirely unchanged. -/
theorem C7_update_absent (s : MemState) (p : PgState) (id : Nat) (title : Str) (done : Bool)
    (hmem : ∀ t ∈ s.tasks, t.id ≠ id) (hpg : ∀ t ∈ p.table, t.id ≠ id) :
    memUpdate s id title done = (none, s) ∧ pgUpdate p id title done = (none, p) := by
  constructor
  · have hf : memGetById s.tasks id = none := by
      rw [memGetById, List.find?_eq_none]
      intro t ht hc
      rw [beq_iff_eq] at hc
      exact hmem t ht hc
    rw [memUpdate, hf]
  · have ha : p.table.any (fun t => t.id == id) = false := by
      rw [Bool.eq_false_iff]
      intro hc
      rw [List.any_eq_true] at hc
      obtain ⟨t, ht, hc⟩ := hc
      rw [beq_iff_eq] at hc
      exact hpg t ht hc
    have hmap : p.table.map
        (fun t => if t.id == id then { t with title := title, done := done } else t) = p.table := by
      have : ∀ t ∈ p.table,
          (if t.id == id then { t with title := title, done := done } else t) = t := by
        intro t ht
        rw [if_neg (by simp [hpg t ht])]
      conv_rhs => rw [← List.map_id p.table]
      exact List.map_congr_left this
    rw [pgUpdate, ha, hmap]
    exact Prod.ext rfl rfl

/-- C7 witness: a concrete instantiation. -/
theorem C7_update_absent_witness :
    memUpdate { tasks := [sampleTaskA], nextId := 2 } 7 ['z'] true
      = (none, { tasks := [sampleTaskA], nextId := 2 })
  ∧ pgUpdate { table := [sampleTaskB], seq := 3 } 7 ['z'] true
      = (none, { table := [sampleTaskB], seq := 3 }) :=
  C7_update_absent { tasks := [sampleTaskA], nextId := 2 } { table := [sampleTaskB], seq := 3 }
    7 ['z'] true (by decide) (by decide)

/-! ## C8: delete returns whether a removal occurred -/

/-- C8: in both backends, `delete` returns true exactly when a task with
the id was present (and it removes every such task), so deleting the same
id twice answers true then false. -/
theorem C8_delete_semantics (s : MemState) (p : PgState) (id : Nat) :
    ((memDelete s id).1 = true ↔ ∃ t ∈ s.tasks, t.id = id)
  ∧ (∀ t ∈ (memDelete s id).2.tasks, t.id ≠ id)
  ∧ (memDelete (memDelete s id).2 id).1 = false
  ∧ ((pgDelete p id).1 = true ↔ ∃ t ∈ p.table, t.id = id)
  ∧ (∀ t ∈ (pgDelete p id).2.table, t.id ≠ id)
  ∧ (pgDelete (pgDelete p id).2 id).1 = false := by
  have hmem1 : ∀ (l : List Task),
      ((l.filter (fun t => t.id != id)).length != l.length) = true ↔ ∃ t ∈ l, t.id = id := by
    intro l
    rw [length_filter_bne_length, List.any_eq_true]
    constructor
    · rintro ⟨t, ht, hp⟩
      simp at hp
      exact ⟨t, ht, hp⟩
    · rintro ⟨t, ht, hp⟩
      exact ⟨t, ht, by simp [hp]⟩
  have hclean : ∀ t ∈ (memDelete s id).2.tasks, t.id ≠ id := by
    intro t ht
    have := List.of_mem_filter ht
    simpa using this
  refine ⟨hmem1 s.tasks, hclean, ?_, ?_, ?_, ?_⟩
  · rw [Bool.eq_false_iff]
    intro hc
    obtain ⟨t, ht, hp⟩ := (hmem1 _).mp hc
    exact hclean t ht hp
  · show decide (0 < p.table.countP (fun t => t.id == id)) = true ↔ _
    rw [decide_eq_true_eq, List.countP_pos_iff]
    constructor
    · rintro ⟨t, ht, hp⟩
      rw [beq_iff_eq] at hp
      exact ⟨t, ht, hp⟩
    · rintro ⟨t, ht, hp⟩
      exact ⟨t, ht, by simp [hp]⟩
  · intro t ht
    have := List.of_mem_filter ht
    simpa using this
  · show decide (0 < ((pgDelete p id).2.table.countP (fun t => t.id == id))) = false
    rw [decide_eq_false_iff_not]
    intro hc
    rw [List.countP_pos_iff] at hc
    obtain ⟨t, ht, hp⟩ := hc
    have h2 := List.of_mem_filter ht
    rw [beq_iff_eq] at hp
    simp [hp] at h2

/-! ## C10: list is read-only on the in-memory store -/

/-- C10: `list` leaves the in-memory state untouched (same records in the
same stored order), and a run with a `list` call inserted is
indistinguishable from the run without it. -/
theorem C10_list_readonly (s : MemState) (q : Query) (pre post : List Op) :
    (memListOp s q).2 = s
  ∧ (memListOp s q).2.tasks = s.tasks
  ∧ runOps (pre ++ Op.list q :: post) = runOps (pre ++ post) := by
  refine ⟨rfl, rfl, ?_⟩
  rw [runOps, runOps, List.foldl_append, List.foldl_append, List.foldl_cons]
  rfl

/-! ## State lemmas for operation sequences -/

theorem nextId_update (s : MemState) (id : Nat) (title : Str) (done : Bool) :
    (memUpdate s id title done).2.nextId = s.nextId := by
  unfold memUpdate
  cases h : memGetById s.tasks id <;> rfl

theorem updateFirst_of_no_match {l : List Task} {id : Nat} (title : Str) (done : Bool)
    (h : ∀ t ∈ l, ¬ (t.id == id) = true) : updateFirst l id title done = l := by
  induction l with
  | nil => rfl
  | cons t ts ih =>
    rw [updateFirst]
    rw [if_neg (h t (List.mem_cons_self t ts))]
    rw [ih (fun x hx => h x (List.mem_cons.mpr (Or.inr hx)))]

theorem memUpdate_snd_tasks (s : MemState) (id : Nat) (title : Str) (done : Bool) :
    (memUpdate s id title done).2.tasks = updateFirst s.tasks id title done := by
  unfold memUpdate
  cases h : memGetById s.tasks id with
  | none =>
    show s.tasks = _
    rw [updateFirst_of_no_match title done (List.find?_eq_none.mp h)]
  | some t => rfl

theorem updateFirst_map_id (l : List Task) (id : Nat) (title : Str) (done : Bool) :
    (updateFirst l id title done).map Task.id = l.map Task.id := by
  induction l with
  | nil => rfl
  | cons t ts ih =>
    rw [updateFirst]
    by_cases h : (t.id == id) = true
    · rw [if_pos h]
      rfl
    · rw [if_neg h]
      show t.id :: _ = t.id :: _
      rw [ih]

theorem invariant_applyOp (s : MemState) (op : Op)
    (h1 : ∀ t ∈ s.tasks, t.id < s.nextId) (h2 : (s.tasks.map Task.id).Nodup) :
    (∀ t ∈ (applyOp s op).tasks, t.id < (applyOp s op).nextId)
    ∧ ((applyOp s op).tasks.map Task.id).Nodup := by
  cases op with
  | list q => exact ⟨h1, h2⟩
  | getById i => exact ⟨h1, h2⟩
  | create title done =>
    constructor
    · intro t ht
      show t.id < s.nextId + 1
      rcases List.mem_append.mp ht with ht | ht
      · exact Nat.lt_succ_of_lt (h1 t ht)
      · rw [List.mem_singleton] at ht
        rw [ht]
        exact Nat.lt_succ_self _
    · show ((s.tasks ++ [({ id := s.nextId, title := title, done := done } : Task)]).map Task.id).Nodup
      rw [List.map_append, List.nodup_append]
      refine ⟨h2, List.nodup_singleton _, ?_⟩
      intro a ha hb
      rw [List.map_singleton, List.mem_singleton] at hb
      rw [List.mem_map] at ha
      obtain ⟨u, hu, hua⟩ := ha
      have := h1 u hu
      rw [hua, hb] at this
      exact absurd this (lt_irrefl _)
  | update i title done =>
    have ht : (applyOp s (.update i title done)).tasks = updateFirst s.tasks i title done :=
      memUpdate_snd_tasks s i title done
    have hn : (applyOp s (.update i title done)).nextId = s.nextId :=
      nextId_update s i title done
    rw [ht, hn]
    constructor
    · intro t htm
      have hid : t.id ∈ (updateFirst s.tasks i title done).map Task.id :=
        List.mem_map_of_mem Task.id htm
      rw [updateFirst_map_id, List.mem_map] at hid
      obtain ⟨u, hu, hua⟩ := hid
      rw [← hua]
      exact h1 u hu
    · rw [updateFirst_map_id]
      exact h2
  | delete i =>
    constructor
    · intro t ht
      exact h1 t (List.mem_of_mem_filter ht)
    · exact List.Nodup.sublist (List.Sublist.map Task.id (List.filter_sublist _)) h2

theorem invariant_foldl (ops : List Op) : ∀ (s : MemState),
    (∀ t ∈ s.tasks, t.id < s.nextId) → ((s.tasks.map Task.id).Nodup) →
    (∀ t ∈ (ops.foldl applyOp s).tasks, t.id < (ops.foldl applyOp s).nextId)
    ∧ ((ops.foldl applyOp s).tasks.map Task.id).Nodup := by
  induction ops with
  | nil =>
    intro s h1 h2
    exact ⟨h1, h2⟩
  | cons op rest ih =>
    intro s h1 h2
    rw [List.foldl_cons]
    obtain ⟨g1, g2⟩ := invariant_applyOp s op h1 h2
    exact ih _ g1 g2

/-! ## C6: id uniqueness invariant -/

/-- C6: starting from an empty in-memory store, after every sequence of
repository calls all persisted tasks have pairwise distinct ids. -/
theorem C6_unique_ids (ops : List Op) : ((runOps ops).tasks.map Task.id).Nodup := by
  rw [runOps]
  refine (invariant_foldl ops emptyRepo ?_ ?_).2
  · intro t ht
    simp [emptyRepo, InMemoryTaskRepository] at ht
  · simp [emptyRepo, InMemoryTaskRepository]

/-! ## C5: id assignment -/

theorem nextId_applyOp_nonCreate (s : MemState) (op : Op)
    (h : ∀ title done, op ≠ .create title done) : (applyOp s op).nextId = s.nextId := by
  cases op with
  | list q => rfl
  | getById i => rfl
  | create title done => exact absurd rfl (h title done)
  | update i title done => exact nextId_update s i title done
  | delete i => rfl

theorem createdIds_eq (ops : List Op) : ∀ (s : MemState),
    createdIds s ops = List.range' s.nextId (countCreates ops) := by
  induction ops with
  | nil =>
    intro s
    rfl
  | cons op rest ih =>
    intro s
    cases op with
    | create title done =>
      show (memCreate s title done).1.id
          :: createdIds (applyOp s (.create title done)) rest
        = List.range' s.nextId (countCreates (Op.create title done :: rest))
      rw [ih]
      have h2 : countCreates (Op.create title done :: rest) = countCreates rest + 1 := by
        rw [countCreates, countCreates, List.countP_cons]
        rfl
      rw [h2, List.range'_succ]
      rfl
    | list q =>
      show createdIds (applyOp s (.list q)) rest = _
      rw [ih]
      have h2 : countCreates (Op.list q :: rest) = countCreates rest := by
        rw [countCreates, countCreates, List.countP_cons]
        rfl
      rw [h2]
      rfl
    | getById i =>
      show createdIds (applyOp s (.getById i)) rest = _
      rw [ih]
      have h2 : countCreates (Op.getById i :: rest) = countCreates rest := by
        rw [countCreates, countCreates, List.countP_cons]
        rfl
      rw [h2]
      rfl
    | update i title done =>
      show createdIds (applyOp s (.update i title done)) rest = _
      rw [ih]
      rw [nextId_applyOp_nonCreate s _ (by intro a b h; exact Op.noConfusion h)]
      have h2 : countCreates (Op.update i title done :: rest) = countCreates rest := by
        rw [countCreates, countCreates, List.countP_cons]
        rfl
      rw [h2]
    | delete i =>
      show createdIds (applyOp s (.delete i)) rest = _
      rw [ih]
      have h2 : countCreates (Op.delete i :: rest) = countCreates rest := by
        rw [countCreates, countCreates, List.countP_cons]
        rfl
      rw [h2]
      rfl

/-- C5 (amended): from an empty store, the n-th `create` call is assigned
id `n` (the ids handed out are `1, 2, 3, …` in order, driven by the
persistent counter), so an id is never assigned twice — but the id is the
counter value, not `1 + max id currently existing`. -/
theorem C5_create_ids_counter (ops : List Op) :
    createdIds emptyRepo ops = List.range' 1 (countCreates ops)
  ∧ (createdIds emptyRepo ops).Nodup := by
  have h := createdIds_eq ops emptyRepo
  refine ⟨h, ?_⟩
  rw [h]
  exact List.nodup_range' _ _

/-- C5 counterexample: after create, create, delete(2), the store holds
only id 1, yet the next create is assigned id 3, not
`1 + max existing id = 2` as the claim states. -/
theorem C5_counterexample :
    (runOps [.create ['a'] false, .create ['b'] false, .delete 2]).tasks.map Task.id = [1]
  ∧ (memCreate (runOps [.create ['a'] false, .create ['b'] false, .delete 2]) ['c'] false).1.id
      = 3 := by
  constructor
  · rfl
  · rfl

/-! ## C4: pagination completeness -/

theorem chunk_flatMap (L : Nat) (hL : 0 < L) :
    ∀ (n : Nat) (l : List Task), l.length ≤ n * L →
      (List.range n).flatMap (fun k => (l.drop (k * L)).take L) = l := by
  intro n
  induction n with
  | zero =>
    intro l h
    rw [Nat.zero_mul] at h
    rw [List.length_eq_zero.mp (Nat.le_zero.mp h)]
    rfl
  | succ n ih =>
    intro l hlen
    rw [List.range_succ_eq_map, List.flatMap_cons]
    have h0 : (l.drop (0 * L)).take L = l.take L := by
      rw [Nat.zero_mul, List.drop_zero]
    have hcong : ∀ k : Nat, (l.drop (Nat.succ k * L)).take L
        = ((l.drop L).drop (k * L)).take L := by
      intro k
      rw [List.drop_drop]
      congr 2
      rw [Nat.succ_mul]
      exact Nat.add_comm _ _
    have hmap : (List.map Nat.succ (List.range n)).flatMap (fun k => (l.drop (k * L)).take L)
        = (List.range n).flatMap (fun k => ((l.drop L).drop (k * L)).take L) := by
      rw [List.flatMap_map]
      simp only [hcong]
    rw [h0, hmap, ih (l.drop L) (by rw [List.length_drop]; rw [Nat.succ_mul] at hlen; omega)]
    exact List.take_append_drop L l

/-- C4: for a fixed query and positive limit, walking the pages at offsets
`0, limit, 2*limit, …` reproduces exactly the full filtered and sorted
set: every page before the first short page has exactly `limit` items, the
page at offset `(total / limit) * limit` is the first one shorter than
`limit` (so the walk stops there), and the concatenation of all pages up
to and including it is the whole sorted filtered list — no task repeated,
none missing. -/
theorem C4_pagination_complete (tasks : List Task) (q : Query) (hL : 0 < q.limit) :
    ((List.range ((memList tasks q).total / q.limit + 1)).flatMap
        (fun k => (memList tasks { q with offset := k * q.limit }).items)
      = memSorted tasks q)
  ∧ (∀ k, k < (memList tasks q).total / q.limit →
      (memList tasks { q with offset := k * q.limit }).items.length = q.limit)
  ∧ (memList tasks
        { q with offset := ((memList tasks q).total / q.limit) * q.limit }).items.length
      < q.limit := by
  have hsorted : ∀ x : Nat, (memList tasks { q with offset := x }).items
      = ((memSorted tasks q).drop x).take q.limit := fun x => rfl
  refine ⟨?_, ?_, ?_⟩
  · have hlen : (memSorted tasks q).length
        ≤ ((memSorted tasks q).length / q.limit + 1) * q.limit := by
      rw [Nat.succ_mul]
      have hd := Nat.div_add_mod (memSorted tasks q).length q.limit
      have hm : (memSorted tasks q).length % q.limit < q.limit :=
        Nat.mod_lt _ hL
      rw [Nat.mul_comm] at hd
      omega
    have hch := chunk_flatMap q.limit hL ((memSorted tasks q).length / q.limit + 1)
      (memSorted tasks q) hlen
    calc (List.range ((memList tasks q).total / q.limit + 1)).flatMap
          (fun k => (memList tasks { q with offset := k * q.limit }).items)
        = (List.range ((memSorted tasks q).length / q.limit + 1)).flatMap
            (fun k => ((memSorted tasks q).drop (k * q.limit)).take q.limit) := by
          simp only [hsorted]
          rfl
      _ = memSorted tasks q := hch
  · intro k hk
    have hk2 : k < (memSorted tasks q).length / q.limit := hk
    rw [hsorted, List.length_take, List.length_drop]
    have h1 : (k + 1) * q.limit ≤ ((memSorted tasks q).length / q.limit) * q.limit :=
      Nat.mul_le_mul_right q.limit (by omega)
    have h2 : ((memSorted tasks q).length / q.limit) * q.limit ≤ (memSorted tasks q).length :=
      Nat.div_mul_le_self _ _
    rw [Nat.succ_mul] at h1
    omega
  · rw [show (memList tasks q).total = (memSorted tasks q).length from rfl]
    rw [hsorted, List.length_take, List.length_drop]
    have hd := Nat.div_add_mod (memSorted tasks q).length q.limit
    have hm : (memSorted tasks q).length % q.limit < q.limit := Nat.mod_lt _ hL
    rw [Nat.mul_comm] at hd
    omega

/-- C4 witness: paging through three tasks two at a time. -/
theorem C4_pagination_complete_witness :
    ((List.range ((memList [sampleTaskA, sampleTaskB, sampleTaskC] sampleQuery).total
          / sampleQuery.limit + 1)).flatMap
        (fun k => (memList [sampleTaskA, sampleTaskB, sampleTaskC]
            { sampleQuery with offset := k * sampleQuery.limit }).items)
      = memSorted [sampleTaskA, sampleTaskB, sampleTaskC] sampleQuery)
  ∧ (∀ k, k < (memList [sampleTaskA, sampleTaskB, sampleTaskC] sampleQuery).total
        / sampleQuery.limit →
      (memList [sampleTaskA, sampleTaskB, sampleTaskC]
          { sampleQuery with offset := k * sampleQuery.limit }).items.length
        = sampleQuery.limit)
  ∧ (memList [sampleTaskA, sampleTaskB, sampleTaskC]
        { sampleQuery with offset :=
            ((memList [sampleTaskA, sampleTaskB, sampleTaskC] sampleQuery).total
              / sampleQuery.limit) * sampleQuery.limit }).items.length
      < sampleQuery.limit :=
  C4_pagination_complete [sampleTaskA, sampleTaskB, sampleTaskC] sampleQuery (by decide)

/-! ## C2: total is the pre-pagination match count -/

/-- C2 (code bug): with one matching task in the store, a query with
`limit = 0`, and likewise one with `offset` beyond the matches, make the
relational backend report `total = 0` (because
`rows.length > 0 ? rows[0].total : 0` collapses an empty page to zero),
while the in-memory backend reports the true pre-pagination count `1` as
the contract demands. -/
theorem C2_total_before_pagination_bug :
    pgList [sampleTaskA] zeroLimitQuery = { items := [], total := 0 }
  ∧ memList [sampleTaskA] zeroLimitQuery = { items := [], total := 1 }
  ∧ pgList [sampleTaskA] beyondOffsetQuery = { items := [], total := 0 }
  ∧ memList [sampleTaskA] beyondOffsetQuery = { items := [], total := 1 } := by
  refine ⟨?_, ?_, ?_, ?_⟩ <;> rfl

/-! ## C1: the two backends are observationally equivalent -/

theorem pgFiltered_eq_memFiltered (l : List Task) (q : Query) :
    pgFiltered l q = memFiltered l q := by
  rw [pgFiltered, memFiltered, List.filter_filter]
  apply List.filter_congr
  intro t ht
  rw [searchMatches_eq]
  exact Bool.and_comm _ _

/-- The sorted, filtered sequences of the two backends coincide whenever
the two stores hold the same tasks (as a multiset) with distinct ids. -/
theorem memSorted_eq_pgSorted (mem table : List Task) (hperm : mem.Perm table)
    (hids : (mem.map Task.id).Nodup) (q : Query) :
    memSorted mem q = pgSorted table q := by
  rw [memSorted, pgSorted]
  have hle : pgLe q.sort q.order = memLe q.sort q.order := by
    funext a b
    exact (memLe_eq_pgLe q.sort q.order a b).symm
  rw [hle, pgFiltered_eq_memFiltered]
  have hpf : (memFiltered mem q).Perm (memFiltered table q) := by
    rw [memFiltered, memFiltered]
    exact (hperm.filter _).filter _
  apply eq_of_perm_of_pairwise
  · exact (sortBy_perm _ _).trans (hpf.trans (sortBy_perm _ _).symm)
  · exact pairwise_sortBy _ (memLe_trans _ _) (memLe_total _ _) _
  · exact pairwise_sortBy _ (memLe_trans _ _) (memLe_total _ _) _
  · intro a ha b hb hab hba
    have hmem_a : a ∈ mem :=
      List.mem_of_mem_filter (List.mem_of_mem_filter ((sortBy_perm _ _).mem_iff.mp ha))
    have hmem_b : b ∈ mem :=
      List.mem_of_mem_filter (List.mem_of_mem_filter ((sortBy_perm _ _).mem_iff.mp hb))
    obtain ⟨heqv, hid⟩ := memLe_antisym_ids hab hba
    exact List.inj_on_of_nodup_map hids hmem_a hmem_b hid

theorem getById_eq (mem table : List Task) (hperm : mem.Perm table)
    (hids : (mem.map Task.id).Nodup) (id : Nat) :
    memGetById mem id = pgGetById table id := by
  rw [memGetById, find?_eq_head?_filter, pgGetById]
  rw [perm_eq_of_length_le_one (hperm.filter _) (filter_id_length_le_one hids id)]

theorem any_id_eq (mem table : List Task) (hperm : mem.Perm table) (id : Nat) :
    mem.any (fun t => t.id == id) = table.any (fun t => t.id == id) := by
  rw [any_eq_decide_countP, any_eq_decide_countP, hperm.countP_eq]

theorem update_result_eq (sm : MemState) (sp : PgState)
    (hperm : sm.tasks.Perm sp.table) (hids : (sm.tasks.map Task.id).Nodup)
    (id : Nat) (title : Str) (done : Bool) :
    (memUpdate sm id title done).1 = (pgUpdate sp id title done).1 := by
  cases h : memGetById sm.tasks id with
  | none =>
    have h1 : (memUpdate sm id title done).1 = none := by
      unfold memUpdate
      rw [h]
    have hgp : pgGetById sp.table id = none := by
      rw [← getById_eq _ _ hperm hids]
      exact h
    have hany : sp.table.any (fun t => t.id == id) = false := by
      rw [Bool.eq_false_iff]
      intro hc
      rw [List.any_eq_true] at hc
      obtain ⟨t, ht, hp⟩ := hc
      have hin : t ∈ sp.table.filter (fun x => x.id == id) := List.mem_filter.mpr ⟨ht, hp⟩
      have hnil : sp.table.filter (fun x => x.id == id) = [] := by
        rw [pgGetById] at hgp
        exact List.head?_eq_none_iff.mp hgp
      rw [hnil] at hin
      exact absurd hin (List.not_mem_nil t)
    rw [h1]
    unfold pgUpdate
    rw [hany]
    rfl
  | some t =>
    have h1 : (memUpdate sm id title done).1
        = some { t with title := title, done := done } := by
      unfold memUpdate
      rw [h]
    have htid : t.id = id := by
      rw [memGetById] at h
      have hp := List.find?_some h
      simp only [beq_iff_eq] at hp
      exact hp
    have hgp : pgGetById sp.table id = some t := by
      rw [← getById_eq _ _ hperm hids]
      exact h
    have hany : sp.table.any (fun x => x.id == id) = true := by
      rw [pgGetById] at hgp
      have hmemf := List.mem_of_mem_head? hgp
      rw [List.any_eq_true]
      have := List.mem_filter.mp hmemf
      exact ⟨t, this.1, this.2⟩
    rw [h1]
    unfold pgUpdate
    rw [hany]
    show some ({ t with title := title, done := done })
      = some ({ id := id, title := title, done := done } : Task)
    rw [show ({ t with title := title, done := done })
      = ({ id := t.id, title := title, done := done } : Task) from rfl, htid]

theorem delete_result_eq (sm : MemState) (sp : PgState)
    (hperm : sm.tasks.Perm sp.table) (id : Nat) :
    (memDelete sm id).1 = (pgDelete sp id).1 := by
  show ((sm.tasks.filter (fun t => t.id != id)).length != sm.tasks.length)
      = decide (0 < sp.table.countP (fun t => t.id == id))
  rw [length_filter_bne_length]
  have hfun : (fun t : Task => !(t.id != id)) = (fun t : Task => t.id == id) := by
    funext t
    simp [bne]
  rw [hfun, any_id_eq sm.tasks sp.table hperm id, any_eq_decide_countP]

/-- C1 (amended): when the two stores hold the same set of tasks (with the
unique ids both backends guarantee), the backends return identical
observable results from `list` items, `getById`, `create` (title/done of
the returned task), `update` and `delete`; `list`'s `total` also agrees
whenever the returned page is nonempty or no task matches — at an empty
page with matches (`limit = 0` or `offset ≥ total`) the relational backend
alone reports `total = 0`. -/
theorem C1_backends_agree (sm : MemState) (sp : PgState)
    (hperm : sm.tasks.Perm sp.table) (hids : (sm.tasks.map Task.id).Nodup)
    (q : Query) (id : Nat) (title : Str) (done : Bool) :
    (memList sm.tasks q).items = (pgList sp.table q).items
  ∧ (((0 < q.limit ∧ q.offset < (memList sm.tasks q).total)
        ∨ (memList sm.tasks q).total = 0) →
      (memList sm.tasks q).total = (pgList sp.table q).total)
  ∧ memGetById sm.tasks id = pgGetById sp.table id
  ∧ (memCreate sm title done).1.title = (pgCreate sp title done).1.title
  ∧ (memCreate sm title done).1.done = (pgCreate sp title done).1.done
  ∧ (memUpdate sm id title done).1 = (pgUpdate sp id title done).1
  ∧ (memDelete sm id).1 = (pgDelete sp id).1 := by
  have hs := memSorted_eq_pgSorted sm.tasks sp.table hperm hids q
  refine ⟨?_, ?_, getById_eq _ _ hperm hids id, rfl, rfl,
    update_result_eq sm sp hperm hids id title done, delete_result_eq sm sp hperm id⟩
  · show ((memSorted sm.tasks q).drop q.offset).take q.limit
      = ((pgSorted sp.table q).drop q.offset).take q.limit
    rw [hs]
  · intro hcase
    show (memSorted sm.tasks q).length
      = if (((pgSorted sp.table q).drop q.offset).take q.limit).length > 0
        then (pgFiltered sp.table q).length else 0
    have hlenf : (pgFiltered sp.table q).length = (memSorted sm.tasks q).length := by
      have h1 : (pgSorted sp.table q).Perm (pgFiltered sp.table q) := sortBy_perm _ _
      rw [← hs] at h1
      exact h1.length_eq.symm
    rcases hcase with ⟨hl, ho⟩ | h0
    · have ho2 : q.offset < (memSorted sm.tasks q).length := ho
      have hpos : 0 < (((pgSorted sp.table q).drop q.offset).take q.limit).length := by
        rw [List.length_take, List.length_drop, ← hs]
        omega
      rw [if_pos hpos, hlenf]
    · have h0' : (memSorted sm.tasks q).length = 0 := h0
      have hps : pgSorted sp.table q = [] := by
        rw [← hs]
        exact List.length_eq_zero.mp h0'
      rw [h0', hps]
      simp

/-- C1 counterexample: two stores holding the same single task; at
`limit = 0` the in-memory backend returns `total = 1`, the relational
backend `total = 0` — so the backends are distinguishable through the
contract output, contrary to the claim as stated. -/
theorem C1_counterexample :
    (memList [sampleTaskA] zeroLimitQuery).total
      ≠ (pgList [sampleTaskA] zeroLimitQuery).total := by
  decide

/-- C1 witness: a concrete two-task instantiation (different storage
orders) of the amended equivalence. -/
theorem C1_backends_agree_witness :
    (memList [sampleTaskA, sampleTaskB] sampleQuery).items
      = (pgList [sampleTaskB, sampleTaskA] sampleQuery).items
  ∧ (((0 < sampleQuery.limit
        ∧ sampleQuery.offset < (memList [sampleTaskA, sampleTaskB] sampleQuery).total)
        ∨ (memList [sampleTaskA, sampleTaskB] sampleQuery).total = 0) →
      (memList [sampleTaskA, sampleTaskB] sampleQuery).total
        = (pgList [sampleTaskB, sampleTaskA] sampleQuery).total)
  ∧ memGetById [sampleTaskA, sampleTaskB] 1 = pgGetById [sampleTaskB, sampleTaskA] 1
  ∧ (memCreate { tasks := [sampleTaskA, sampleTaskB], nextId := 3 } ['z'] true).1.title
      = (pgCreate { table := [sampleTaskB, sampleTaskA], seq := 3 } ['z'] true).1.title
  ∧ (memCreate { tasks := [sampleTaskA, sampleTaskB], nextId := 3 } ['z'] true).1.done
      = (pgCreate { table := [sampleTaskB, sampleTaskA], seq := 3 } ['z'] true).1.done
  ∧ (memUpdate { tasks := [sampleTaskA, sampleTaskB], nextId := 3 } 1 ['z'] true).1
      = (pgUpdate { table := [sampleTaskB, sampleTaskA], seq := 3 } 1 ['z'] true).1
  ∧ (memDelete { tasks := [sampleTaskA, sampleTaskB], nextId := 3 } 1).1
      = (pgDelete { table := [sampleTaskB, sampleTaskA], seq := 3 } 1).1 :=
  C1_backends_agree { tasks := [sampleTaskA, sampleTaskB], nextId := 3 }
    { table := [sampleTaskB, sampleTaskA], seq := 3 }
    (List.Perm.swap sampleTaskB sampleTaskA []) (by decide) sampleQuery 1 ['z'] true

/-! ## C9: search wildcards are escaped -/

/-- C9: the pattern the relational backend passes to the store —
`%` + `escapeLike(search)` + `%` under `ILIKE` — matches a title exactly
when the raw search string is a case-insensitive substring of it, for
every search string (in particular those containing `%`, `_` or `\`), so
user input never acts as a wildcard; consequently the relational search
filter coincides with the in-memory substring filter. -/
theorem C9_search_escaped_literal (search titleStr : Str) (os : Option Str) (t : Task) :
    ilike titleStr ('%' :: (escapeLike search ++ ['%']))
      = includesSub (lowerStr titleStr) (lowerStr search)
  ∧ searchMatchesPg os t = searchMatchesMem os t :=
  ⟨ilike_escaped_pattern search titleStr, searchMatches_eq os t⟩

end TasksApi
